import Mathlib

/-!
Verification of the Allan-variance analysis engine of the
`imu_allan_variance` repository.

The embedding models the Rust sources shallowly:

* `f64` values are idealised as real numbers (`ℝ`); `f64` casts to `usize`
  and `u64` on non-negative values become `Nat.floor`.
* `SystemTime` timestamps (nanosecond resolution) are natural numbers of
  nanoseconds since the epoch.
* Fallible operations return `Except`; a possible Rust panic (slice index
  out of bounds, `usize` underflow, `step_by(0)`, `BTreeMap` indexing with
  a missing key, `unwrap` on `None`) is modelled by an `Option` layer whose
  `none` means the surrounding computation panics.
* The rayon parallel maps (`into_par_iter().map(...).collect()`) preserve
  index order and propagate a worker panic at `collect`, so they are
  modelled as ordinary (panic-propagating) traversals.
-/

namespace ImuAvar

/-- 6-component real vector (ax, ay, az, gx, gy, gz).  Models
`nalgebra::Vector6<f64>` (`Vec6` of `calc.rs`, `Vf64` of `avar_calc.rs`)
and the hand-rolled `avar_calc.rs::Vec6` wrapper over `[f64; 6]`, all of
which are plain componentwise containers. -/
abbrev Vec6 := Fin 6 → ℝ

/-- Model of ROS `geometry_msgs/msg/Vector3`: three `f64` components. -/
structure Vector3 where
  x : ℝ
  y : ℝ
  z : ℝ

instance : Inhabited Vector3 := ⟨⟨0, 0, 0⟩⟩

/-- Model of `messages::Imu`: a timestamp plus the angular velocity
(radians per second) and linear acceleration (metres per second squared)
of one sample. -/
structure Imu where
  ts : ℕ
  angular_velocity : Vector3
  linear_acceleration : Vector3

instance : Inhabited Imu := ⟨⟨0, default, default⟩⟩

/-- The ingestion invariant: `messages.rs::create_imu_messages` sorts every
topic by timestamp (non-decreasing). -/
def tsSorted (l : List Imu) : Prop := l.Pairwise (fun a b => a.ts ≤ b.ts)

/-- A fallible Rust loop (or rayon parallel map) collecting its results:
`none` models a panic escaping the loop. -/
def optTraverse {α β : Type} (f : α → Option β) : List α → Option (List β)
  | [] => some []
  | a :: l =>
    match f a, optTraverse f l with
    | some b, some bs => some (b :: bs)
    | _, _ => none

/-- Model of the Rust slice expression `&l[s..e]`: `none` models the
out-of-bounds panic. -/
def sliceRange {α : Type} (l : List α) (s e : ℕ) : Option (List α) :=
  if s ≤ e ∧ e ≤ l.length then some ((l.drop s).take (e - s)) else none

/-- Model of `slice::partition_point` applied to a slice partitioned by `p`
(all elements satisfying `p` first): the number of leading elements
satisfying `p`. -/
def partition_point {α : Type} (p : α → Bool) (l : List α) : ℕ :=
  (l.takeWhile p).length

/-- Step indices of the Rust iterator `(0..n).step_by(s)` for `s > 0`:
`0, s, 2*s, ...` strictly below `n`. -/
def stepIndices (n s : ℕ) : List ℕ :=
  (List.range ((n + s - 1) / s)).map (fun i => i * s)

/-- The Rust integer range `a..b`, as a list (empty when `b ≤ a`). -/
def intRange (a b : ℤ) : List ℤ :=
  (List.range (b - a).toNat).map (fun i => a + Int.ofNat i)

/-- The two failure values of the clustering routines (anyhow error strings
in the source; the spec names them `ClusterTooSmall` and
`InsufficientClusters`). -/
inductive AvarError where
  | clusterTooSmall
  | insufficientClusters
deriving DecidableEq

/-- The run-level failure of `VarianceCalculator::run` (anyhow error
string, named `EmptyInput` by the spec). -/
inductive RunError where
  | emptyInput
deriving DecidableEq

namespace Calc

/-- `calc.rs::rad_to_deg`: `rad * 180.0 / PI` with
`PI = std::f64::consts::PI`. -/
noncomputable def rad_to_deg (rad : ℝ) : ℝ := rad * 180 / Real.pi

/-- The 6-vector built from one sample inside the averaging loops of
`calc.rs`: linear acceleration as is, angular velocity through
`rad_to_deg`. -/
noncomputable def imuVec (m : Imu) : Vec6 :=
  ![m.linear_acceleration.x, m.linear_acceleration.y, m.linear_acceleration.z,
    rad_to_deg m.angular_velocity.x, rad_to_deg m.angular_velocity.y,
    rad_to_deg m.angular_velocity.z]

/-- `calc.rs::range`: two partition points over the timestamps, then the
slice between them. -/
def range (messages : List Imu) (start stop : ℕ) : Option (List Imu) :=
  sliceRange messages
    (partition_point (fun x => decide (x.ts ≤ start)) messages)
    (partition_point (fun x => decide (x.ts ≤ stop)) messages)

/-- `calc.rs::averages_non_overlapping`: the two error checks, then one
window average per full cluster.  The windows are the slice expressions
`&messages[i*c .. i*c + c]` of the source. -/
noncomputable def averages_non_overlapping (messages : List Imu)
    (cluster_size : ℕ) : Option (Except AvarError (List Vec6)) :=
  if cluster_size = 0 then some (.error .clusterTooSmall)
  else if messages.length / cluster_size < 2 then
    some (.error .insufficientClusters)
  else
    (optTraverse
      (fun i =>
        (sliceRange messages (i * cluster_size) (i * cluster_size + cluster_size)).map
          (fun w => fun k => (w.map imuVec).sum k / (cluster_size : ℝ)))
      (List.range (messages.length / cluster_size))).map Except.ok

/-- `calc.rs::allan_variance`: accumulate the squared first differences of
consecutive averages, then scale every one of the 6 components once by
`0.5 / (len - 1)`. -/
noncomputable def allan_variance (averages : List Vec6) : Vec6 :=
  let sum_squares : Vec6 :=
    (averages.zip averages.tail).foldl
      (fun s pc => fun k => s k + (pc.2 k - pc.1 k) * (pc.2 k - pc.1 k)) 0
  fun i => 0.5 * sum_squares i / ((averages.length : ℝ) - 1)

/-- `calc.rs::VarianceCalculator`: measure rate, optional duration and
offset (both in seconds, `f64` in the source). -/
structure VarianceCalculator where
  measure_rate : ℝ
  sequence_duration : Option ℝ
  sequence_offset : ℝ

/-- Seconds to nanoseconds, for `Duration::new(s, 0)` added to a
`SystemTime`. -/
def secs_to_ns (s : ℕ) : ℕ := s * 1000000000

/-- `calc.rs::VarianceCalculator::average_calc`.  `none` models a panic:
`step_by(0)` when the bin size is 0, and the `usize` underflow of
`messages.len() - max_bin_size` (debug) or the subsequent slice
out-of-bounds access (release) when the bin size exceeds the slice length.
The remaining element accesses `messages[i + j]` are in bounds and are
modelled with `getD`. -/
noncomputable def VarianceCalculator.average_calc (vc : VarianceCalculator)
    (messages : List Imu) (period : ℤ) : Option (List Vec6) :=
  let period_time : ℝ := (period : ℝ) * 0.1
  let max_bin_size : ℕ := ⌊period_time * vc.measure_rate⌋₊
  if max_bin_size = 0 then none
  else if messages.length < max_bin_size then none
  else some
    ((stepIndices (messages.length - max_bin_size) max_bin_size).map
      (fun i => fun k =>
        ((List.range max_bin_size).map
          (fun j => imuVec (messages.getD (i + j) default))).sum k
            / (max_bin_size : ℝ)))

/-- `calc.rs::VarianceCalculator::calc_averages`: one `average_calc` per
period of `min_period..max_period`; the `BTreeMap` is modelled as the
association list in key order (the keys are distinct, so insertion order
is irrelevant).  A panicking rayon worker propagates at `collect`. -/
noncomputable def VarianceCalculator.calc_averages (vc : VarianceCalculator)
    (messages : List Imu) (min_period max_period : ℤ) :
    Option (List (ℤ × List Vec6)) :=
  optTraverse
    (fun period => (vc.average_calc messages period).map (fun av => (period, av)))
    (intRange min_period max_period)

/-- `calc.rs::VarianceCalculator::deviation_calc`.  Note two quirks of the
source, reproduced here: the inner loop runs `j` over `0..5` only, so
component 5 is never written, and the accumulator is rescaled by
`0.5 / (num_averages - 1)` after every addition instead of once at the
end.  The subtraction `num_averages - 1` is evaluated only when at least
one consecutive pair exists, hence `num_averages ≥ 2` there. -/
noncomputable def VarianceCalculator.deviation_calc (vc : VarianceCalculator)
    (averages : List Vec6) (period : ℤ) : ℝ × Vec6 :=
  let period_time : ℝ := (period : ℝ) * 0.1
  let num_averages := averages.length
  let variance : Vec6 :=
    (averages.zip averages.tail).foldl
      (fun v pc => fun j =>
        if (j : ℕ) < 5 then
          (v j + (pc.2 j - pc.1 j) ^ 2) * (0.5 / ((num_averages - 1 : ℕ) : ℝ))
        else v j)
      0
  (period_time, fun j => Real.sqrt (variance j))

/-- `calc.rs::VarianceCalculator::calc_deviations`: iterate the fixed
period range `1..10000` and index the averages map; `none` models the
`BTreeMap` `Index` panic on a missing key. -/
noncomputable def VarianceCalculator.calc_deviations (vc : VarianceCalculator)
    (averages_map : List (ℤ × List Vec6)) : Option (List (ℝ × Vec6)) :=
  optTraverse
    (fun period =>
      (averages_map.lookup period).map (fun avgs => vc.deviation_calc avgs period))
    (intRange 1 10000)

/-- `calc.rs::VarianceCalculator::run`: the empty-input check, the window
selection by offset and duration, then `calc_averages` and
`calc_deviations`.  The `f64 as u64` casts of the offset and duration are
`Nat.floor`. -/
noncomputable def VarianceCalculator.run (vc : VarianceCalculator)
    (messages : List Imu) (min_period max_period : ℤ) :
    Option (Except RunError (List (ℝ × Vec6))) :=
  if messages.isEmpty then some (.error .emptyInput)
  else
    match messages.head?, messages.getLast? with
    | some m0, some mlast =>
      let offset_timestamp := m0.ts + secs_to_ns ⌊vc.sequence_offset⌋₊
      let end_timestamp :=
        match vc.sequence_duration with
        | some d => offset_timestamp + secs_to_ns ⌊d⌋₊
        | none => mlast.ts
      match Calc.range messages offset_timestamp end_timestamp with
      | none => none
      | some rng =>
        match vc.calc_averages rng min_period max_period with
        | none => none
        | some averages_map => (vc.calc_deviations averages_map).map Except.ok
    | _, _ => none

end Calc

namespace AvarCalc

/-- `avar_calc.rs::rad_to_deg`: `rad * 180.0 / PI_2`, where the file
imports `std::f64::consts::FRAC_PI_2 as PI_2`, so the divisor is half of
pi. -/
noncomputable def rad_to_deg (rad : ℝ) : ℝ := rad * 180 / (Real.pi / 2)

/-- The 6-vector built from one sample inside `avar_calc.rs::avar_calc`:
linear acceleration as is, angular velocity through the local
`rad_to_deg`. -/
noncomputable def imuVec (m : Imu) : Vec6 :=
  ![m.linear_acceleration.x, m.linear_acceleration.y, m.linear_acceleration.z,
    rad_to_deg m.angular_velocity.x, rad_to_deg m.angular_velocity.y,
    rad_to_deg m.angular_velocity.z]

/-- `avar_calc.rs::avar_calc`: the two error checks and the window
averaging (identical in structure to `calc.rs::averages_non_overlapping`
but using the local `rad_to_deg`), then the variance from the squared
first differences.  The final loop of the source runs `for i in 0..5`, so
component 5 of the result keeps its `Vf64::default()` value 0. -/
noncomputable def avar_calc (messages : List Imu) (sampling_period : ℝ)
    (cluster_size : ℕ) : Option (Except AvarError (ℝ × Vec6)) :=
  if cluster_size = 0 then some (.error .clusterTooSmall)
  else if messages.length / cluster_size < 2 then
    some (.error .insufficientClusters)
  else
    (optTraverse
      (fun i =>
        (sliceRange messages (i * cluster_size) (i * cluster_size + cluster_size)).map
          (fun w => fun k => (w.map imuVec).sum k / (cluster_size : ℝ)))
      (List.range (messages.length / cluster_size))).map
      (fun averages =>
        let sum_squares : Vec6 :=
          (averages.zip averages.tail).foldl
            (fun s pc => fun k => s k + (pc.2 k - pc.1 k) * (pc.2 k - pc.1 k)) 0
        let avar : Vec6 := fun i =>
          if (i : ℕ) < 5 then 0.5 * sum_squares i / ((averages.length : ℝ) - 1)
          else 0
        let tau := sampling_period * (cluster_size : ℝ)
        Except.ok (tau, avar))

end AvarCalc

namespace MainSrc

/-- `main.rs::message_range`: start bound `first_ts + offset`, end bound
`start + duration` or, with no duration, the timestamp of the last sample;
two partition points with predicate `ts <= bound`, then the slice between
them.  The `f64` second offsets (`Duration::from_secs_f64`) are modelled
as exact nanosecond counts; `none` models the `unwrap` panics on an empty
slice and the slice-indexing panic. -/
def message_range (messages : List Imu) (offset_ns : ℕ)
    (duration_ns : Option ℕ) : Option (List Imu) :=
  match messages.head?, messages.getLast? with
  | some m0, some mlast =>
    let start := m0.ts + offset_ns
    let stop :=
      match duration_ns with
      | some d => start + d
      | none => mlast.ts
    sliceRange messages
      (partition_point (fun x => decide (x.ts ≤ start)) messages)
      (partition_point (fun x => decide (x.ts ≤ stop)) messages)
  | _, _ => none

/-- The end bound used by `message_range`: `start + duration`, or the
timestamp of the last sample when no duration is configured. -/
def stopBound (start : ℕ) (duration_ns : Option ℕ) (mlast : Imu) : ℕ :=
  match duration_ns with
  | some d => start + d
  | none => mlast.ts

/-- The fields of `config.rs::TopicConfig` that the analysis uses; the
second-valued `f64` fields are modelled as nanosecond counts. -/
structure TopicConfig where
  measure_rate : ℝ
  sequence_duration : Option ℕ
  sequence_offset : ℕ

/-- The cluster size of one sweep period in `main.rs`:
`(tau * measure_rate) as usize` with `tau = p as f64 * 0.1`. -/
noncomputable def cluster_size (rate : ℝ) (p : ℕ) : ℕ :=
  ⌊(p : ℝ) * 0.1 * rate⌋₊

/-- The period sweep of `main.rs` (lines 137 to 168): for every period
index `p` in `1..10000`, compute tau and the cluster size, run
`averages_non_overlapping` and `allan_variance`, and keep
`(tau, sqrt of variance)` for the successful periods.  The source marks a
failed period with a `(NaN, default)` placeholder inside the parallel map
and then `retain`s the entries whose tau is not NaN; a genuine tau
`p * 0.1` is never NaN, so the marker-and-retain pair is modelled as
`filterMap`.  The rayon `collect` keeps index order, so the sweep output
order does not depend on task scheduling.  The `none` (panic) value of
`averages_non_overlapping` is provably unreachable and falls into the
skip branch. -/
noncomputable def sweep (rate : ℝ) (selection : List Imu) :
    List (ℝ × Vec6) :=
  (List.range' 1 9999).filterMap
    (fun (p : ℕ) =>
      let tau : ℝ := (p : ℝ) * 0.1
      match Calc.averages_non_overlapping selection (cluster_size rate p) with
      | some (Except.ok averages) =>
        some (tau, fun k => Real.sqrt (Calc.allan_variance averages k))
      | _ => none)

/-- One configured topic of the `main.rs` loop (lines 112 to 178): empty
topic data is detected before anything else and skips the topic (logged as
the empty-input failure); otherwise the analysis window is selected with
`message_range` and the sweep runs.  `none` models a panic escaping the
topic body. -/
noncomputable def process_topic (cfg : TopicConfig) (data : List Imu) :
    Option (Except RunError (List (ℝ × Vec6))) :=
  if data.isEmpty then some (.error .emptyInput)
  else
    (message_range data cfg.sequence_offset cfg.sequence_duration).map
      (fun selection => .ok (sweep cfg.measure_rate selection))

/-- The whole-process loop over the configured topics: each topic is
processed independently and a failed topic is reported as `none` in the
output while the others proceed.  `none` at the outer layer models an
uncaught panic crashing the process. -/
noncomputable def process_all (topics : List (TopicConfig × List Imu)) :
    Option (List (Option (List (ℝ × Vec6)))) :=
  optTraverse (fun tc => (process_topic tc.1 tc.2).map Except.toOption) topics

end MainSrc

/-! ### Helper lemmas about the loop and slice models -/

theorem optTraverse_map {α β : Type} {f : α → Option β} {g : α → β}
    {l : List α} (h : ∀ a ∈ l, f a = some (g a)) :
    optTraverse f l = some (l.map g) := by
  induction l with
  | nil => rfl
  | cons a t ih =>
    have ha := h a (List.mem_cons_self a t)
    have ht := ih (fun x hx => h x (List.mem_cons_of_mem a hx))
    simp [optTraverse, ha, ht]

theorem optTraverse_isSome {α β : Type} {f : α → Option β} {l : List α}
    (h : ∀ a ∈ l, ∃ b, f a = some b) :
    ∃ r, optTraverse f l = some r ∧ r.length = l.length := by
  induction l with
  | nil => exact ⟨[], rfl, rfl⟩
  | cons a t ih =>
    obtain ⟨b, hb⟩ := h a (List.mem_cons_self a t)
    obtain ⟨r, hr, hlen⟩ := ih (fun x hx => h x (List.mem_cons_of_mem a hx))
    exact ⟨b :: r, by simp [optTraverse, hb, hr], by simp [hlen]⟩

theorem optTraverse_none {α β : Type} {f : α → Option β} {l : List α}
    {a : α} (ha : a ∈ l) (hf : f a = none) :
    optTraverse f l = none := by
  induction l with
  | nil => cases ha
  | cons x t ih =>
    rcases List.mem_cons.mp ha with h | h
    · subst h
      simp [optTraverse, hf]
    · cases hx : f x with
      | none => simp [optTraverse, hx]
      | some b => simp [optTraverse, hx, ih h]

theorem optTraverse_keys {α β : Type} {f : α → Option β} {g : β → α}
    (hf : ∀ a b, f a = some b → g b = a) :
    ∀ {l : List α} {r : List β}, optTraverse f l = some r → r.map g = l := by
  intro l
  induction l with
  | nil =>
    intro r hr
    simp only [optTraverse] at hr
    cases hr
    rfl
  | cons a t ih =>
    intro r hr
    simp only [optTraverse] at hr
    cases hfa : f a with
    | none => rw [hfa] at hr; cases hr
    | some b =>
      rw [hfa] at hr
      cases hft : optTraverse f t with
      | none => rw [hft] at hr; cases hr
      | some bs =>
        rw [hft] at hr
        cases hr
        simp [hf a b hfa, ih hft]

theorem lookup_eq_none_of_not_mem {β : Type} {r : List (ℤ × β)} {p : ℤ}
    (h : p ∉ r.map Prod.fst) : r.lookup p = none := by
  induction r with
  | nil => rfl
  | cons x t ih =>
    simp only [List.map_cons, List.mem_cons, not_or] at h
    have hne : (p == x.1) = false := by
      simpa [beq_iff_eq] using h.1
    simpa [List.lookup, hne] using ih h.2

theorem mem_intRange {a b p : ℤ} : p ∈ intRange a b ↔ a ≤ p ∧ p < b := by
  unfold intRange
  rw [List.mem_map]
  constructor
  · rintro ⟨i, hi, rfl⟩
    rw [List.mem_range] at hi
    have h1 := Int.lt_toNat.mp hi
    rw [Int.ofNat_eq_coe]
    omega
  · rintro ⟨h1, h2⟩
    refine ⟨(p - a).toNat, ?_, ?_⟩
    · rw [List.mem_range]
      refine Int.lt_toNat.mpr ?_
      omega
    · rw [Int.ofNat_eq_coe]
      omega

theorem length_stepIndices (n s : ℕ) :
    (stepIndices n s).length = (n + s - 1) / s := by
  simp [stepIndices]

/-! ### Facts about partition points over a sorted sample list -/

theorem takeWhile_le_eq_filter (l : List Imu) (a : ℕ) (hs : tsSorted l) :
    l.takeWhile (fun x => decide (x.ts ≤ a)) =
      l.filter (fun x => decide (x.ts ≤ a)) := by
  induction l with
  | nil => rfl
  | cons x t ih =>
    rcases List.pairwise_cons.mp hs with ⟨hx, ht⟩
    by_cases hxa : x.ts ≤ a
    · simp [List.takeWhile_cons, List.filter_cons, hxa, ih ht]
    · have hnil : t.filter (fun y => decide (y.ts ≤ a)) = [] := by
        rw [List.filter_eq_nil_iff]
        intro y hy
        have := hx y hy
        simp only [decide_eq_true_eq]
        omega
      simp [List.takeWhile_cons, List.filter_cons, hxa, hnil]

theorem take_takeWhile_length {α : Type} (l : List α) (p : α → Bool) :
    l.take (l.takeWhile p).length = l.takeWhile p := by
  induction l with
  | nil => rfl
  | cons x t ih =>
    by_cases hx : p x
    · simp [List.takeWhile_cons, hx, ih]
    · simp [List.takeWhile_cons, hx]

theorem filter_le_split (l : List Imu) (a b : ℕ) (hs : tsSorted l)
    (hab : a ≤ b) :
    l.filter (fun x => decide (x.ts ≤ b)) =
      l.filter (fun x => decide (x.ts ≤ a)) ++
        l.filter (fun x => decide (a < x.ts ∧ x.ts ≤ b)) := by
  induction l with
  | nil => rfl
  | cons x t ih =>
    rcases List.pairwise_cons.mp hs with ⟨hx, ht⟩
    by_cases hxa : x.ts ≤ a
    · have hxb : x.ts ≤ b := le_trans hxa hab
      have hmid : ¬(a < x.ts ∧ x.ts ≤ b) := by omega
      simp [List.filter_cons, hxa, hxb, hmid, ih ht]
    · have hta : t.filter (fun y => decide (y.ts ≤ a)) = [] := by
        rw [List.filter_eq_nil_iff]
        intro y hy
        have := hx y hy
        simp only [decide_eq_true_eq]
        omega
      by_cases hxb : x.ts ≤ b
      · have hmid : a < x.ts ∧ x.ts ≤ b := by omega
        have hcongr : t.filter (fun y => decide (y.ts ≤ b)) =
            t.filter (fun y => decide (a < y.ts ∧ y.ts ≤ b)) := by
          apply List.filter_congr
          intro y hy
          have := hx y hy
          simp only [decide_eq_true_eq, decide_eq_decide]
          omega
        simp [List.filter_cons, hxa, hxb, hmid, hta, hcongr]
      · have htb : t.filter (fun y => decide (y.ts ≤ b)) = [] := by
          rw [List.filter_eq_nil_iff]
          intro y hy
          have := hx y hy
          simp only [decide_eq_true_eq]
          omega
        have htmid : t.filter (fun y => decide (a < y.ts ∧ y.ts ≤ b)) = [] := by
          rw [List.filter_eq_nil_iff]
          intro y hy
          have := hx y hy
          simp only [decide_eq_true_eq]
          omega
        have hmid : ¬(a < x.ts ∧ x.ts ≤ b) := by omega
        simp only [List.filter_cons, decide_eq_true_eq]
        rw [if_neg hxb, if_neg hxa, if_neg hmid]
        simp [hta, htb, htmid]
        intro y hy _
        have := hx y hy
        omega

theorem filter_le_lt_split (l : List Imu) (a : ℕ) (hs : tsSorted l) :
    l = l.filter (fun x => decide (x.ts ≤ a)) ++
      l.filter (fun x => decide (a < x.ts)) := by
  induction l with
  | nil => rfl
  | cons x t ih =>
    rcases List.pairwise_cons.mp hs with ⟨hx, ht⟩
    by_cases hxa : x.ts ≤ a
    · have hlt : ¬(a < x.ts) := by omega
      simpa [List.filter_cons, hxa, hlt] using ih ht
    · have hta : t.filter (fun y => decide (y.ts ≤ a)) = [] := by
        rw [List.filter_eq_nil_iff]
        intro y hy
        have := hx y hy
        simp only [decide_eq_true_eq]
        omega
      have hself : t.filter (fun y => decide (a < y.ts)) = t := by
        rw [List.filter_eq_self]
        intro y hy
        have := hx y hy
        simp only [decide_eq_true_eq]
        omega
      have hlt : a < x.ts := by omega
      simp [List.filter_cons, hxa, hta, hself, hlt]

theorem ts_le_getLast (l : List Imu) (mlast : Imu)
    (hl : l.getLast? = some mlast) (hs : tsSorted l) :
    ∀ m ∈ l, m.ts ≤ mlast.ts := by
  induction l with
  | nil => intro m hm; cases hm
  | cons x t ih =>
    rcases List.pairwise_cons.mp hs with ⟨hx, ht⟩
    intro m hm
    cases t with
    | nil =>
      have hxl : x = mlast := by
        simpa [List.getLast?] using hl
      rcases List.mem_cons.mp hm with rfl | h
      · exact le_of_eq (by rw [hxl])
      · cases h
    | cons y u =>
      have hl' : (y :: u).getLast? = some mlast := by
        simpa [List.getLast?_cons_cons] using hl
      rcases List.mem_cons.mp hm with rfl | hm'
      · exact hx mlast (List.mem_of_getLast?_eq_some hl')
      · exact ih hl' ht m hm'

theorem length_takeWhile_le {α : Type} (p : α → Bool) (l : List α) :
    (l.takeWhile p).length ≤ l.length := by
  induction l with
  | nil => simp
  | cons x t ih =>
    by_cases hx : p x
    · simpa [List.takeWhile_cons, hx] using Nat.succ_le_succ ih
    · simp [List.takeWhile_cons, hx]

theorem slice_between (l : List Imu) (a b : ℕ) (F : List Imu)
    (hs : tsSorted l)
    (h : l.filter (fun x => decide (x.ts ≤ b)) =
      l.filter (fun x => decide (x.ts ≤ a)) ++ F) :
    sliceRange l (partition_point (fun x => decide (x.ts ≤ a)) l)
      (partition_point (fun x => decide (x.ts ≤ b)) l) = some F := by
  have hta := takeWhile_le_eq_filter l a hs
  have htb := takeWhile_le_eq_filter l b hs
  have hse : partition_point (fun x => decide (x.ts ≤ a)) l ≤
      partition_point (fun x => decide (x.ts ≤ b)) l := by
    simp only [partition_point, hta, htb, h, List.length_append]
    omega
  have hel : partition_point (fun x => decide (x.ts ≤ b)) l ≤ l.length := by
    simpa [partition_point] using length_takeWhile_le _ l
  rw [sliceRange, if_pos ⟨hse, hel⟩, ← List.drop_take]
  have htake : l.take (partition_point (fun x => decide (x.ts ≤ b)) l) =
      l.filter (fun x => decide (x.ts ≤ b)) := by
    rw [partition_point, ← htb]
    exact take_takeWhile_length l _
  rw [htake, h, partition_point, hta, List.drop_left]

/-- The range selector of `main.rs` on a nonempty sorted series selects
exactly the samples whose timestamp lies in the interval
`(start, stop]` with `start = first_ts + offset` and
`stop = start + duration` (or the last timestamp without a duration):
start bound exclusive, end bound inclusive. -/
theorem message_range_eq_filter (messages : List Imu) (offset_ns : ℕ)
    (duration_ns : Option ℕ) (m0 mlast : Imu)
    (h0 : messages.head? = some m0) (hl : messages.getLast? = some mlast)
    (hs : tsSorted messages) :
    MainSrc.message_range messages offset_ns duration_ns =
      some (messages.filter (fun m =>
        decide (m0.ts + offset_ns < m.ts ∧
          m.ts ≤ MainSrc.stopBound (m0.ts + offset_ns) duration_ns mlast))) := by
  simp only [MainSrc.message_range, h0, hl]
  cases duration_ns with
  | some d =>
    simp only [MainSrc.stopBound]
    exact slice_between messages (m0.ts + offset_ns) (m0.ts + offset_ns + d) _
      hs (filter_le_split messages _ _ hs (Nat.le_add_right _ _))
  | none =>
    simp only [MainSrc.stopBound]
    refine slice_between messages (m0.ts + offset_ns) mlast.ts _ hs ?_
    have hfull : messages.filter (fun x => decide (x.ts ≤ mlast.ts)) = messages := by
      rw [List.filter_eq_self]
      intro m hm
      simpa using ts_le_getLast messages mlast hl hs m hm
    have hsplit := filter_le_lt_split messages (m0.ts + offset_ns) hs
    have hcongr : messages.filter (fun x => decide (m0.ts + offset_ns < x.ts)) =
        messages.filter (fun x =>
          decide (m0.ts + offset_ns < x.ts ∧ x.ts ≤ mlast.ts)) := by
      apply List.filter_congr
      intro m hm
      have := ts_le_getLast messages mlast hl hs m hm
      simp only [decide_eq_decide]
      omega
    rw [hfull, ← hcongr]
    exact hsplit

/-! ### Behaviour of the clusterer `averages_non_overlapping` -/

theorem averages_error_small (messages : List Imu) :
    Calc.averages_non_overlapping messages 0 =
      some (Except.error AvarError.clusterTooSmall) := by
  rw [Calc.averages_non_overlapping, if_pos rfl]

theorem averages_error_insufficient (messages : List Imu) (cluster_size : ℕ)
    (h1 : cluster_size ≠ 0) (h2 : messages.length / cluster_size < 2) :
    Calc.averages_non_overlapping messages cluster_size =
      some (Except.error AvarError.insufficientClusters) := by
  rw [Calc.averages_non_overlapping, if_neg h1, if_pos h2]

theorem averages_success (messages : List Imu) (cluster_size : ℕ)
    (h1 : cluster_size ≠ 0) (h2 : 2 ≤ messages.length / cluster_size) :
    Calc.averages_non_overlapping messages cluster_size =
      some (Except.ok ((List.range (messages.length / cluster_size)).map
        (fun i => fun k =>
          (((messages.drop (i * cluster_size)).take cluster_size).map
            Calc.imuVec).sum k / (cluster_size : ℝ)))) := by
  rw [Calc.averages_non_overlapping, if_neg h1, if_neg (by omega)]
  rw [optTraverse_map (g := fun i => fun k =>
      (((messages.drop (i * cluster_size)).take cluster_size).map
        Calc.imuVec).sum k / (cluster_size : ℝ))]
  · rfl
  · intro i hi
    rw [List.mem_range] at hi
    have hbound : i * cluster_size + cluster_size ≤ messages.length := by
      have hle : (i + 1) * cluster_size ≤ messages.length :=
        (Nat.le_div_iff_mul_le (Nat.pos_of_ne_zero h1)).mp hi
      calc i * cluster_size + cluster_size = (i + 1) * cluster_size := by ring
        _ ≤ messages.length := hle
    rw [sliceRange, if_pos ⟨Nat.le_add_right _ _, hbound⟩,
      Nat.add_sub_cancel_left]
    rfl

theorem window_length (messages : List Imu) (cluster_size : ℕ)
    (h1 : cluster_size ≠ 0) (i : ℕ)
    (hi : i < messages.length / cluster_size) :
    ((messages.drop (i * cluster_size)).take cluster_size).length =
      cluster_size := by
  have hle : (i + 1) * cluster_size ≤ messages.length :=
    (Nat.le_div_iff_mul_le (Nat.pos_of_ne_zero h1)).mp hi
  rw [List.length_take, List.length_drop]
  have : i * cluster_size + cluster_size ≤ messages.length := by
    calc i * cluster_size + cluster_size = (i + 1) * cluster_size := by ring
      _ ≤ messages.length := hle
  omega

theorem pred_div (q c : ℕ) (hq : 1 ≤ q) (hc : 1 ≤ c) :
    (q * c - 1) / c = q - 1 := by
  obtain ⟨c', rfl⟩ : ∃ c', c = c' + 1 := ⟨c - 1, by omega⟩
  obtain ⟨q', rfl⟩ : ∃ q', q = q' + 1 := ⟨q - 1, by omega⟩
  have hmul : (q' + 1) * (c' + 1) = q' * (c' + 1) + (c' + 1) := by ring
  have h : (q' + 1) * (c' + 1) - 1 = c' + q' * (c' + 1) := by omega
  rw [h, Nat.add_mul_div_right _ _ (Nat.succ_pos c'),
    Nat.div_eq_of_lt (by omega)]
  omega

/-! ### Concrete inputs used in the claim theorems -/

/-- Two zero-reading samples one second apart. -/
def msgs2 : List Imu := [⟨0, ⟨0, 0, 0⟩, ⟨0, 0, 0⟩⟩,
  ⟨1000000000, ⟨0, 0, 0⟩, ⟨0, 0, 0⟩⟩]

/-- Three zero-reading samples at timestamps 0, 1 and 2. -/
def msgs3 : List Imu := [⟨0, ⟨0, 0, 0⟩, ⟨0, 0, 0⟩⟩,
  ⟨1, ⟨0, 0, 0⟩, ⟨0, 0, 0⟩⟩, ⟨2, ⟨0, 0, 0⟩, ⟨0, 0, 0⟩⟩]

/-- Four identical zero samples. -/
def msgs4 : List Imu := List.replicate 4 ⟨0, ⟨0, 0, 0⟩, ⟨0, 0, 0⟩⟩

/-- Five identical zero samples. -/
def msgs5 : List Imu := List.replicate 5 ⟨0, ⟨0, 0, 0⟩, ⟨0, 0, 0⟩⟩

/-- Two samples whose angular-rate z components are 0 and pi/360 radians
per second. -/
noncomputable def msgsB : List Imu := [⟨0, ⟨0, 0, 0⟩, ⟨0, 0, 0⟩⟩,
  ⟨1, ⟨0, 0, Real.pi / 360⟩, ⟨0, 0, 0⟩⟩]

/-- A calculator configured at 10 Hz. -/
def vc10 : Calc.VarianceCalculator := ⟨10, none, 0⟩

/-- A calculator configured at 100 Hz. -/
def vc100 : Calc.VarianceCalculator := ⟨100, none, 0⟩

/-- A topic configuration at 100 Hz, no duration, no offset. -/
def cfg0 : MainSrc.TopicConfig := ⟨100, none, 0⟩

/-! ### Claim theorems -/

/-- C1.  The claim states that every cluster-averaging routine in the
program converts angular rates by multiplying with 180 over pi, so that a
rate of pi radians per second averages to exactly 180 degrees per second.
This holds for the conversion of `calc.rs` but fails for the one of
`avar_calc.rs`, which divides by `FRAC_PI_2` (half of pi) and therefore
turns pi radians per second into 360, not 180, degrees per second. -/
theorem c1_rad_to_deg_divergence :
    Calc.rad_to_deg Real.pi = 180 ∧
    AvarCalc.rad_to_deg Real.pi = 360 ∧ (360 : ℝ) ≠ 180 := by
  refine ⟨?_, ?_, by norm_num⟩
  · rw [Calc.rad_to_deg, mul_comm, mul_div_assoc,
      div_self Real.pi_ne_zero, mul_one]
  · rw [AvarCalc.rad_to_deg]
    rw [div_eq_iff (by positivity : Real.pi / 2 ≠ 0)]
    ring

/-- C2.  The claim states that the variance estimator processes all 6
components.  `avar_calc.rs::avar_calc` computes the sum of squared first
differences for all 6 components but copies only components 0 to 4 into
the result (loop `for i in 0..5`), so component 5 of its output is always
0: on two window averages whose component 5 values are 0 and 1, the
estimator of section 4.3 gives one half while the code returns 0. -/
theorem c2_component5_dropped :
    (AvarCalc.avar_calc msgsB 1 1).map (Except.map (fun r => r.2 5)) =
      some (Except.ok 0) ∧
    0.5 * (AvarCalc.rad_to_deg (Real.pi / 360) - AvarCalc.rad_to_deg 0) ^ 2 /
      (2 - 1) = (1 / 2 : ℝ) ∧
    ((1 : ℝ) / 2) ≠ 0 := by
  refine ⟨rfl, ?_, by norm_num⟩
  rw [AvarCalc.rad_to_deg, AvarCalc.rad_to_deg]
  rw [div_eq_iff (by norm_num : (2 : ℝ) - 1 ≠ 0)]
  have h1 : Real.pi / 360 * 180 / (Real.pi / 2) = (1 : ℝ) := by
    rw [div_eq_iff (by positivity : Real.pi / 2 ≠ 0)]
    ring
  rw [h1]
  norm_num

/-- C3 counterexample.  On two samples at 10 Hz with period index 1 (one
sample per cluster), the clustering stage of `VarianceCalculator` produces
a single window average while the clusterer of the fixed sweep produces
two, so the configurable-range sweep does not compute the same window
averages as the fixed sweep. -/
theorem c3_not_same_window_averages :
    (Calc.VarianceCalculator.average_calc vc10 msgs2 1).map List.length =
      some 1 ∧
    (Calc.averages_non_overlapping msgs2 1).map (Except.map List.length) =
      some (Except.ok 2) ∧ (1 : ℕ) ≠ 2 := by
  refine ⟨?_, ?_, by norm_num⟩
  · have hmbs : ⌊((1 : ℤ) : ℝ) * 0.1 * vc10.measure_rate⌋₊ = 1 := by
      have : ((1 : ℤ) : ℝ) * 0.1 * vc10.measure_rate = 1 := by
        show ((1 : ℤ) : ℝ) * 0.1 * (10 : ℝ) = 1
        norm_num
      rw [this, Nat.floor_one]
    simp only [Calc.VarianceCalculator.average_calc, hmbs]
    norm_num [msgs2, stepIndices]
  · rfl

/-- C3 amended.  When the cluster size `c` divides the sample count `n`
with at least two full windows, the clustering stage of
`VarianceCalculator` (`average_calc`, strides of the index range
`0..(n - c)`) produces exactly one window fewer than the clusterer of the
fixed sweep (`averages_non_overlapping`, `n / c` windows), so the two
sweeps do not produce the same window averages. -/
theorem c3_variant_drops_last_window (vc : Calc.VarianceCalculator)
    (messages : List Imu) (period : ℤ) (c : ℕ)
    (hc : ⌊(period : ℝ) * 0.1 * vc.measure_rate⌋₊ = c) (h1 : c ≠ 0)
    (hdvd : c ∣ messages.length) (h2 : 2 * c ≤ messages.length) :
    ∃ l r, vc.average_calc messages period = some l ∧
      Calc.averages_non_overlapping messages c = some (Except.ok r) ∧
      l.length + 1 = r.length ∧ r.length = messages.length / c := by
  have hq : 2 ≤ messages.length / c :=
    (Nat.le_div_iff_mul_le (Nat.pos_of_ne_zero h1)).mpr h2
  have hcn : c ≤ messages.length := le_trans (by omega) h2
  obtain ⟨q, hqc⟩ := hdvd
  have hq1 : 2 ≤ q := by
    have := hq
    rw [hqc, Nat.mul_div_cancel_left q (Nat.pos_of_ne_zero h1)] at this
    exact this
  have havg : vc.average_calc messages period =
      some ((stepIndices (messages.length - c) c).map
        (fun i => fun k =>
          ((List.range c).map
            (fun j => Calc.imuVec (messages.getD (i + j) default))).sum k /
              (c : ℝ))) := by
    simp only [Calc.VarianceCalculator.average_calc, hc]
    rw [if_neg h1, if_neg (by omega)]
  refine ⟨_, _, havg, averages_success messages c h1 hq, ?_, ?_⟩
  · rw [List.length_map, length_stepIndices, List.length_map,
      List.length_range]
    have hsub : messages.length - c + c - 1 = messages.length - 1 := by omega
    rw [hsub, hqc, mul_comm c q, pred_div q c (by omega) (by omega),
      Nat.mul_div_cancel q (Nat.pos_of_ne_zero h1)]
    omega
  · rw [List.length_map, List.length_range]

/-- C3 amended, witness at two samples with rate 10 and period index 1. -/
theorem c3_variant_drops_last_window_witness :
    ∃ l r, Calc.VarianceCalculator.average_calc vc10 msgs2 1 = some l ∧
      Calc.averages_non_overlapping msgs2 1 = some (Except.ok r) ∧
      l.length + 1 = r.length ∧ r.length = msgs2.length / 1 := by
  refine c3_variant_drops_last_window vc10 msgs2 1 1 ?_ (by norm_num)
    (by norm_num [msgs2]) (by norm_num [msgs2])
  have : ((1 : ℤ) : ℝ) * 0.1 * vc10.measure_rate = 1 := by
    show ((1 : ℤ) : ℝ) * 0.1 * (10 : ℝ) = 1
    norm_num
  rw [this, Nat.floor_one]

/-- C5 counterexample.  On five samples at 100 Hz with period index 1
(bin size 10), `VarianceCalculator::average_calc` panics (the index range
`messages.len() - max_bin_size` underflows), rather than returning a
`ClusterTooSmall` or `InsufficientClusters` error value: the totality
claimed for every window-averaging routine fails for this routine. -/
theorem c5_average_calc_panics :
    Calc.VarianceCalculator.average_calc vc100 msgs5 1 = none := by
  have hmbs : ⌊((1 : ℤ) : ℝ) * 0.1 * vc100.measure_rate⌋₊ = 10 := by
    have : ((1 : ℤ) : ℝ) * 0.1 * vc100.measure_rate = 10 := by
      show ((1 : ℤ) : ℝ) * 0.1 * (100 : ℝ) = 10
      norm_num
    rw [this]
    exact Nat.floor_ofNat 10
  simp only [Calc.VarianceCalculator.average_calc, hmbs]
  norm_num [msgs5]

/-- C5 amended.  The clusterer of the fixed sweep,
`averages_non_overlapping`, is total: it never panics and never accesses
the slice out of bounds (it always returns a value), and whenever the
cluster size exceeds the slice length or yields fewer than two windows it
returns an error value.  The other window-averaging routine,
`VarianceCalculator::average_calc`, instead panics on such inputs (see
the counterexample). -/
theorem c5_clusterer_total (messages : List Imu) (cluster_size : ℕ) :
    (∃ r, Calc.averages_non_overlapping messages cluster_size = some r) ∧
    (messages.length < cluster_size ∨ messages.length / cluster_size < 2 →
      ∃ e, Calc.averages_non_overlapping messages cluster_size =
        some (Except.error e)) := by
  constructor
  · by_cases h1 : cluster_size = 0
    · exact ⟨_, by rw [h1]; exact averages_error_small messages⟩
    · by_cases h2 : messages.length / cluster_size < 2
      · exact ⟨_, averages_error_insufficient messages cluster_size h1 h2⟩
      · exact ⟨_, averages_success messages cluster_size h1 (by omega)⟩
  · intro h
    by_cases h1 : cluster_size = 0
    · exact ⟨_, by rw [h1]; exact averages_error_small messages⟩
    · have h2 : messages.length / cluster_size < 2 := by
        rcases h with h | h
        · rw [Nat.div_eq_of_lt h]
          omega
        · exact h
      exact ⟨_, averages_error_insufficient messages cluster_size h1 h2⟩

/-- C5 amended, witness at five samples with cluster size 10. -/
theorem c5_clusterer_total_witness :
    (∃ r, Calc.averages_non_overlapping msgs5 10 = some r) ∧
    ∃ e, Calc.averages_non_overlapping msgs5 10 =
      some (Except.error e) :=
  ⟨(c5_clusterer_total msgs5 10).1,
    (c5_clusterer_total msgs5 10).2 (Or.inl (by norm_num [msgs5]))⟩

/-- C6.  The clusterer `averages_non_overlapping` fails with
`ClusterTooSmall` exactly when the cluster size is 0, fails with
`InsufficientClusters` exactly when the cluster size is positive but
yields fewer than two full windows, and otherwise succeeds with exactly
`n / c` window averages taken in non-overlapping strides of length `c`
from the start of the slice — each window holding exactly `c` samples, the
trailing incomplete window being discarded. -/
theorem c6_clusterer_spec (messages : List Imu) (cluster_size : ℕ) :
    (Calc.averages_non_overlapping messages cluster_size =
        some (Except.error AvarError.clusterTooSmall) ↔ cluster_size = 0) ∧
    (Calc.averages_non_overlapping messages cluster_size =
        some (Except.error AvarError.insufficientClusters) ↔
      1 ≤ cluster_size ∧ messages.length / cluster_size < 2) ∧
    (1 ≤ cluster_size → 2 ≤ messages.length / cluster_size →
      Calc.averages_non_overlapping messages cluster_size =
          some (Except.ok ((List.range (messages.length / cluster_size)).map
            (fun i => fun k =>
              (((messages.drop (i * cluster_size)).take cluster_size).map
                Calc.imuVec).sum k / (cluster_size : ℝ)))) ∧
        ∀ i, i < messages.length / cluster_size →
          ((messages.drop (i * cluster_size)).take cluster_size).length =
            cluster_size) := by
  by_cases h1 : cluster_size = 0
  · subst h1
    rw [averages_error_small]
    refine ⟨by simp, by simp, fun h3 _ => by omega⟩
  · by_cases h2 : messages.length / cluster_size < 2
    · rw [averages_error_insufficient messages cluster_size h1 h2]
      refine ⟨by simp [h1], ?_, fun h3 h4 => absurd h4 (by omega)⟩
      exact ⟨fun _ => ⟨Nat.one_le_iff_ne_zero.mpr h1, h2⟩, fun _ => rfl⟩
    · rw [averages_success messages cluster_size h1 (by omega)]
      refine ⟨by simp [h1], by simp [h2], fun h3 h4 => ?_⟩
      exact ⟨rfl, fun i hi => window_length messages cluster_size h1 i hi⟩

/-- C6 witness: four samples with cluster size 2 cluster into two window
averages. -/
theorem c6_clusterer_spec_witness :
    Calc.averages_non_overlapping msgs4 2 =
      some (Except.ok ((List.range (msgs4.length / 2)).map
        (fun i => fun k =>
          (((msgs4.drop (i * 2)).take 2).map Calc.imuVec).sum k /
            (2 : ℝ)))) :=
  ((c6_clusterer_spec msgs4 2).2.2 (by norm_num)
    (by norm_num [msgs4])).1

/-- C4 counterexample.  On timestamps 0, 1, 2 with offset 1 and duration
1, the claimed half-open selection `[start, stop)` holds exactly the
sample at timestamp 1, but `message_range` returns exactly the sample at
timestamp 2: both partition points use the predicate `ts <= bound`, so the
start bound is exclusive and the end bound inclusive. -/
theorem c4_interval_counterexample :
    (MainSrc.message_range msgs3 1 (some 1)).map (List.map Imu.ts) =
      some [2] ∧
    (msgs3.filter (fun m => decide (1 ≤ m.ts ∧ m.ts < 2))).map Imu.ts =
      [1] ∧
    ([2] : List ℕ) ≠ [1] :=
  ⟨rfl, rfl, by decide⟩

/-- C4 amended.  On a nonempty timestamp-sorted series, `message_range`
returns exactly the contiguous sub-slice of samples whose timestamps lie
in the interval `(first_ts + offset, first_ts + offset + duration]` —
start bound exclusive, end bound inclusive — and when the duration is
absent the (inclusive) end bound is the timestamp of the last sample;
bounds are resolved by two partition-point searches over the sorted
timestamps. -/
theorem c4_message_range_bounds (messages : List Imu) (offset_ns : ℕ)
    (duration_ns : Option ℕ) (m0 mlast : Imu)
    (h0 : messages.head? = some m0) (hl : messages.getLast? = some mlast)
    (hs : tsSorted messages) :
    MainSrc.message_range messages offset_ns duration_ns =
      some (messages.filter (fun m =>
        decide (m0.ts + offset_ns < m.ts ∧
          m.ts ≤ MainSrc.stopBound (m0.ts + offset_ns) duration_ns mlast))) :=
  message_range_eq_filter messages offset_ns duration_ns m0 mlast h0 hl hs

/-- C4 amended, witness at timestamps 0, 1, 2 with offset 1, duration 1. -/
theorem c4_message_range_bounds_witness :
    MainSrc.message_range msgs3 1 (some 1) =
      some (msgs3.filter (fun m =>
        decide ((0 : ℕ) + 1 < m.ts ∧
          m.ts ≤ MainSrc.stopBound (0 + 1) (some 1)
            ⟨2, ⟨0, 0, 0⟩, ⟨0, 0, 0⟩⟩))) :=
  c4_message_range_bounds msgs3 1 (some 1) ⟨0, ⟨0, 0, 0⟩, ⟨0, 0, 0⟩⟩
    ⟨2, ⟨0, 0, 0⟩, ⟨0, 0, 0⟩⟩ rfl rfl
    (by simp [tsSorted, msgs3, List.pairwise_cons])

/-- The per-topic behaviour of the `main.rs` loop on a sorted series:
empty data is rejected as the empty-input failure before the sweep, and
nonempty data always yields a curve. -/
theorem process_topic_spec (cfg : MainSrc.TopicConfig) (data : List Imu)
    (hs : tsSorted data) :
    (data = [] → MainSrc.process_topic cfg data =
      some (Except.error RunError.emptyInput)) ∧
    (data ≠ [] → ∃ sel, MainSrc.process_topic cfg data =
      some (Except.ok (MainSrc.sweep cfg.measure_rate sel))) := by
  constructor
  · rintro rfl
    rfl
  · intro hne
    obtain ⟨m0, t, rfl⟩ : ∃ m0 t, data = m0 :: t := by
      cases data with
      | nil => exact absurd rfl hne
      | cons a t => exact ⟨a, t, rfl⟩
    obtain ⟨ml, hml⟩ : ∃ ml, (m0 :: t).getLast? = some ml := by
      cases h : (m0 :: t).getLast? with
      | none => exact absurd (List.getLast?_eq_none_iff.mp h) (by simp)
      | some ml => exact ⟨ml, rfl⟩
    have hmr := message_range_eq_filter (m0 :: t) cfg.sequence_offset
      cfg.sequence_duration m0 ml rfl hml hs
    rw [MainSrc.process_topic, if_neg (by simp), hmr]
    exact ⟨_, rfl⟩

/-- C7.  For every topic of a run, an empty input series is the only
run-fatal condition, detected before the sweep begins and reported as the
empty-input failure; a nonempty sorted series always produces a result,
and the whole-process loop handles every configured source, never
crashing on a failed one. -/
theorem c7_empty_input_only_fatal :
    (∀ (cfg : MainSrc.TopicConfig) (data : List Imu), tsSorted data →
      ((MainSrc.process_topic cfg data =
          some (Except.error RunError.emptyInput)) ↔ data = []) ∧
      ∃ r, MainSrc.process_topic cfg data = some r ∧
        ((∃ curve, r = Except.ok curve) ↔ data ≠ [])) ∧
    ∀ (topics : List (MainSrc.TopicConfig × List Imu)),
      (∀ t ∈ topics, tsSorted t.2) →
      ∃ out, MainSrc.process_all topics = some out ∧
        out.length = topics.length := by
  constructor
  · intro cfg data hs
    obtain ⟨hempty, hnonempty⟩ := process_topic_spec cfg data hs
    by_cases hd : data = []
    · subst hd
      refine ⟨⟨fun _ => rfl, fun _ => hempty rfl⟩,
        Except.error RunError.emptyInput, hempty rfl, ?_⟩
      constructor
      · rintro ⟨c, hc⟩
        exact Except.noConfusion hc
      · intro h
        exact absurd rfl h
    · obtain ⟨sel, hsel⟩ := hnonempty hd
      refine ⟨⟨fun h => ?_, fun h => absurd h hd⟩, _, hsel, ?_⟩
      · rw [hsel] at h
        exact Except.noConfusion (Option.some.inj h)
      · exact ⟨fun _ => hd, fun _ => ⟨_, rfl⟩⟩
  · intro topics hall
    apply optTraverse_isSome
    intro t ht
    obtain ⟨hempty, hnonempty⟩ := process_topic_spec t.1 t.2 (hall t ht)
    by_cases hd : t.2 = []
    · exact ⟨none, by rw [hempty hd]; rfl⟩
    · obtain ⟨sel, hsel⟩ := hnonempty hd
      exact ⟨some (MainSrc.sweep t.1.measure_rate sel), by rw [hsel]; rfl⟩

/-- C7 witness: an empty topic yields the empty-input failure. -/
theorem c7_empty_input_only_fatal_witness :
    MainSrc.process_topic cfg0 [] =
      some (Except.error RunError.emptyInput) :=
  ((c7_empty_input_only_fatal.1 cfg0 [] List.Pairwise.nil).1).mpr rfl

/-- C8.  A period of the sweep whose clustering fails contributes no
entry to the curve, and every emitted entry comes from a period whose
clustering succeeded, carrying the tau and deviation of that period; a
per-period failure never aborts the sweep (the sweep itself is a total
function). -/
theorem c8_failed_periods_dropped (rate : ℝ) (selection : List Imu) :
    (∀ p ∈ List.range' 1 9999, ∀ e,
      Calc.averages_non_overlapping selection (MainSrc.cluster_size rate p) =
        some (Except.error e) →
      ∀ d, ((p : ℝ) * 0.1, d) ∉ MainSrc.sweep rate selection) ∧
    ∀ td ∈ MainSrc.sweep rate selection, ∃ p, p ∈ List.range' 1 9999 ∧
      ∃ averages,
        Calc.averages_non_overlapping selection
          (MainSrc.cluster_size rate p) = some (Except.ok averages) ∧
        td = ((p : ℝ) * 0.1,
          fun k => Real.sqrt (Calc.allan_variance averages k)) := by
  constructor
  · intro p hp e he d hmem
    simp only [MainSrc.sweep] at hmem
    rw [List.mem_filterMap] at hmem
    obtain ⟨q, hq, hfq⟩ := hmem
    cases hcase : Calc.averages_non_overlapping selection
      (MainSrc.cluster_size rate q) with
    | none =>
      rw [hcase] at hfq
      exact Option.noConfusion hfq
    | some res =>
      cases res with
      | error e2 =>
        rw [hcase] at hfq
        exact Option.noConfusion hfq
      | ok avgs =>
        rw [hcase] at hfq
        have hfst : (q : ℝ) * 0.1 = (p : ℝ) * 0.1 :=
          congrArg Prod.fst (Option.some.inj hfq)
        have hqp : q = p := by
          have h2 := mul_right_cancel₀ (by norm_num : (0.1 : ℝ) ≠ 0) hfst
          exact_mod_cast h2
        subst hqp
        rw [hcase] at he
        exact Except.noConfusion (Option.some.inj he)
  · intro td htd
    simp only [MainSrc.sweep] at htd
    rw [List.mem_filterMap] at htd
    obtain ⟨p, hp, hfp⟩ := htd
    refine ⟨p, hp, ?_⟩
    cases hcase : Calc.averages_non_overlapping selection
      (MainSrc.cluster_size rate p) with
    | none =>
      rw [hcase] at hfp
      exact Option.noConfusion hfp
    | some res =>
      cases res with
      | error e2 =>
        rw [hcase] at hfp
        exact Option.noConfusion hfp
      | ok avgs =>
        rw [hcase] at hfp
        exact ⟨avgs, rfl, (Option.some.inj hfp).symm⟩

/-- C8 witness: with an empty selection every period fails and
contributes no entry; shown for period index 1 at rate 1. -/
theorem c8_failed_periods_dropped_witness :
    (((1 : ℕ) : ℝ) * 0.1, (0 : Vec6)) ∉ MainSrc.sweep 1 [] := by
  refine (c8_failed_periods_dropped 1 []).1 1 ?_
    AvarError.clusterTooSmall ?_ 0
  · rw [List.mem_range']
    exact ⟨0, by omega, by omega⟩
  · have hcs : MainSrc.cluster_size 1 1 = 0 := by
      rw [MainSrc.cluster_size]
      have h1 : ((1 : ℕ) : ℝ) * 0.1 * 1 = 0.1 := by norm_num
      rw [h1, Nat.floor_eq_zero]
      norm_num
    rw [hcs]
    exact averages_error_small []

theorem pairwise_fst_lt_filterMap {α β : Type} {f : α → Option (ℝ × β)}
    {l : List α} {g : α → ℝ}
    (hf : ∀ a x, f a = some x → x.1 = g a)
    (hl : l.Pairwise (fun a b => g a < g b)) :
    ((l.filterMap f).map Prod.fst).Pairwise (fun x y => x < y) := by
  induction l with
  | nil => simp
  | cons a t ih =>
    rcases List.pairwise_cons.mp hl with ⟨ha, ht⟩
    cases hfa : f a with
    | none =>
      rw [List.filterMap_cons_none hfa]
      exact ih ht
    | some x =>
      rw [List.filterMap_cons_some hfa, List.map_cons, List.pairwise_cons]
      refine ⟨?_, ih ht⟩
      intro y hy
      rw [List.mem_map] at hy
      obtain ⟨z, hz, rfl⟩ := hy
      rw [List.mem_filterMap] at hz
      obtain ⟨b, hb, hfb⟩ := hz
      rw [hf a x hfa, hf b z hfb]
      exact ha b hb

/-- C9.  The emitted curve is strictly increasing in tau: the sweep walks
the period indices in increasing order, each emitted entry carries the tau
of its period, and dropping failed periods preserves the order. -/
theorem c9_curve_strictly_increasing (rate : ℝ) (selection : List Imu) :
    ((MainSrc.sweep rate selection).map Prod.fst).Pairwise
      (fun x y => x < y) := by
  rw [MainSrc.sweep]
  refine pairwise_fst_lt_filterMap
    (g := fun p : ℕ => (p : ℝ) * 0.1) ?_ ?_
  · intro p x hx
    cases hcase : Calc.averages_non_overlapping selection
      (MainSrc.cluster_size rate p) with
    | none =>
      rw [hcase] at hx
      exact Option.noConfusion hx
    | some res =>
      cases res with
      | error e =>
        rw [hcase] at hx
        exact Option.noConfusion hx
      | ok avgs =>
        rw [hcase] at hx
        rw [← Option.some.inj hx]
  · have h := List.pairwise_lt_range' 1 9999
    refine h.imp ?_
    intro a b hab
    have hcast : (a : ℝ) < b := by exact_mod_cast hab
    exact mul_lt_mul_of_pos_right hcast (by norm_num)

/-- C10 counterexample.  A call of `VarianceCalculator::run` on an empty
slice with a range omitting the indices 1 to 4 returns the empty-input
error value rather than panicking, so the claim does not hold for every
call with an omitted index. -/
theorem c10_empty_returns_error :
    Calc.VarianceCalculator.run vc100 [] 5 10000 =
      some (Except.error RunError.emptyInput) := rfl

theorem run_tail_none (vc : Calc.VarianceCalculator)
    (min_period max_period : ℤ)
    (hrange : 1 < min_period ∨ max_period < 10000)
    (ro : Option (List Imu)) :
    (match ro with
     | none => (none : Option (Except RunError (List (ℝ × Vec6))))
     | some rng =>
       match vc.calc_averages rng min_period max_period with
       | none => none
       | some averages_map =>
         (vc.calc_deviations averages_map).map Except.ok) = none := by
  cases ro with
  | none => rfl
  | some rng =>
    show (match vc.calc_averages rng min_period max_period with
      | none => (none : Option (Except RunError (List (ℝ × Vec6))))
      | some averages_map =>
        (vc.calc_deviations averages_map).map Except.ok) = none
    cases hca : vc.calc_averages rng min_period max_period with
    | none => rfl
    | some m =>
      have hkeys : m.map Prod.fst = intRange min_period max_period := by
        refine optTraverse_keys (g := Prod.fst) ?_ hca
        intro a b hb
        cases hav : vc.average_calc rng a with
        | none =>
          rw [hav] at hb
          exact Option.noConfusion hb
        | some av =>
          rw [hav] at hb
          rw [← Option.some.inj hb]
      have key : ∀ p0 : ℤ, p0 ∈ intRange 1 10000 →
          p0 ∉ intRange min_period max_period →
          ((vc.calc_deviations m).map Except.ok :
            Option (Except RunError (List (ℝ × Vec6)))) = none := by
        intro p0 hmem hnot
        have hlook : m.lookup p0 = none :=
          lookup_eq_none_of_not_mem (by rw [hkeys]; exact hnot)
        have hnone : vc.calc_deviations m = none := by
          rw [Calc.VarianceCalculator.calc_deviations]
          refine optTraverse_none hmem ?_
          rw [hlook]
          rfl
        rw [hnone]
        rfl
      rcases hrange with h | h
      · exact key 1 (by rw [mem_intRange]; omega)
          (by rw [mem_intRange]; omega)
      · exact key 9999 (by rw [mem_intRange]; omega)
          (by rw [mem_intRange]; omega)

/-- C10 amended.  On every nonempty message slice, a call of
`VarianceCalculator::run` whose caller-supplied range omits any index in
1..9999 panics instead of returning a result or an error: either the
averaging stage already panics, or the deviation stage — which always
iterates the fixed indices 1..9999 — indexes the averages map (whose keys
are exactly the caller range) at a missing key.  An empty slice returns
the empty-input error first, so nonemptiness is required. -/
theorem c10_run_panics_on_omitted_index (vc : Calc.VarianceCalculator)
    (messages : List Imu) (min_period max_period : ℤ)
    (hne : messages ≠ [])
    (hrange : 1 < min_period ∨ max_period < 10000) :
    vc.run messages min_period max_period = none := by
  obtain ⟨m0, t, rfl⟩ : ∃ m0 t, messages = m0 :: t := by
    cases messages with
    | nil => exact absurd rfl hne
    | cons a t => exact ⟨a, t, rfl⟩
  obtain ⟨ml, hml⟩ : ∃ ml, (m0 :: t).getLast? = some ml := by
    cases h : (m0 :: t).getLast? with
    | none => exact absurd (List.getLast?_eq_none_iff.mp h) (by simp)
    | some ml => exact ⟨ml, rfl⟩
  rw [Calc.VarianceCalculator.run, if_neg (by simp)]
  simp only [List.head?_cons, hml]
  exact run_tail_none vc min_period max_period hrange _

/-- C10 amended, witness: two samples with the caller range 5..10000. -/
theorem c10_run_panics_on_omitted_index_witness :
    Calc.VarianceCalculator.run vc100 msgs2 5 10000 = none :=
  c10_run_panics_on_omitted_index vc100 msgs2 5 10000
    (by simp [msgs2]) (Or.inl (by norm_num))

end ImuAvar
